import Mathlib

/-!
Shallow embedding of the AIND-Recognizer core (`my_model_selectors.py` and
`my_recognizer.py`).

Modelling conventions:
* The external Gaussian-HMM library calls (`GaussianHMM(...).fit`, `model.score`,
  `model.n_features`, `np.log`) are oracles gathered in a record; a fit or score
  call that raises is modelled by the oracle returning `none`.
* A Python `try: ... except: pass` block around a trial is modelled by the trial
  returning `Option`: `none` means the body raised and the handler dropped it.
* Log-likelihood floats are modelled as rationals; `np.mean` of a list is
  `sum / length` (the unreached empty case yields 0 rather than numpy's NaN).
* Python dicts iterate in insertion order, so `dict` inputs are association
  lists; `range(a, b)` is `List.range' a (b - a)`.
* `random_state`, `verbose` and the warning-suppression calls have no
  observable effect on the values studied here and are absorbed by the oracles.
-/

namespace ASL

/-- Oracles for the external HMM library: `fit n X lengths` models
`GaussianHMM(n_components=n, ...).fit(X, lengths)` (`none` = the fit raised),
`score m X lengths` models `m.score(X, lengths)` (`none` = the score raised),
`nfeat` models `m.n_features`, and `rlog` models `np.log` applied to the
integer `len(X)`. -/
structure Oracles (Obs Model : Type) where
  fit : ℕ → List Obs → List ℕ → Option Model
  score : Model → List Obs → List ℕ → Option ℚ
  nfeat : Model → ℕ
  rlog : ℕ → ℚ

/-- The fields of `ModelSelector` set by `__init__`: the shared
word → sequence-list dict (`self.words`), the shared word → (X, lengths) dict
(`self.hwords`), the word's own sequence list, the word's whole-word flattened
observations and lengths, the word itself, and the three state-count knobs. -/
structure SelState (Word Obs : Type) where
  words : List (Word × List (List Obs))
  hwords : List (Word × (List Obs × List ℕ))
  sequences : List (List Obs)
  X : List Obs
  lengths : List ℕ
  this_word : Word
  n_constant : ℕ
  min_n_components : ℕ
  max_n_components : ℕ

/-- `range(self.min_n_components, self.max_n_components + 1)`. -/
def candRange {Word Obs : Type} (s : SelState Word Obs) : List ℕ :=
  List.range' s.min_n_components (s.max_n_components + 1 - s.min_n_components)

/-- `ModelSelector.base_model`: builds and fits a `GaussianHMM` on the
selector's current `self.X`, `self.lengths`, returning `None` when the fit
raises (the `try/except` inside `base_model` itself). -/
def base_model {Obs Model : Type} (o : Oracles Obs Model)
    (X : List Obs) (lengths : List ℕ) (num_states : ℕ) : Option Model :=
  o.fit num_states X lengths

/-- `m.score(X, lengths)` where `m` may be Python `None`: calling `.score` on
`None` raises `AttributeError`, hence `none`. -/
def pyScore {Obs Model : Type} (o : Oracles Obs Model)
    (m : Option Model) (X : List Obs) (lengths : List ℕ) : Option ℚ :=
  m.bind (fun mm => o.score mm X lengths)

/-- `np.mean` of a list of floats (`sum / len`; the empty case, NaN in numpy,
collapses to `0` here and is hypothesised away in the theorems that use it). -/
def npMean (l : List ℚ) : ℚ := l.sum / l.length

/-- Python's `min(scores, key=lambda x: x[0])` starting from a current best:
iterate, replacing the best only on strictly smaller key, so the first minimal
element wins ties. -/
def pyMinBy {M : Type} : List (ℚ × M) → (ℚ × M) → (ℚ × M)
  | [], best => best
  | x :: xs, best => pyMinBy xs (if x.1 < best.1 then x else best)

/-- Python's `max(scores, key=lambda x: x[0])` starting from a current best:
replace only on strictly greater key, so the first maximal element wins ties. -/
def pyMaxBy {M : Type} : List (ℚ × M) → (ℚ × M) → (ℚ × M)
  | [], best => best
  | x :: xs, best => pyMaxBy xs (if best.1 < x.1 then x else best)

/-- One loop iteration of the `scores`-collecting pattern shared by
`SelectorBIC.select` and `SelectorDIC.select`: run the candidate's `try` body;
on success append `[result, model]` to `scores`, on a raise `except: pass`
leaves `scores` unchanged. -/
def collect {α β : Type} (f : α → Option β) (acc : List β) (n : α) : List β :=
  match f n with
  | some r => acc ++ [r]
  | none => acc

/-- `SelectorConstant.select`: fit once at `self.n_constant`; the result is
whatever `base_model` returns, including `None` on fit failure.  The state is
returned alongside to record that no selector field is assigned. -/
def SelectorConstant.select {Word Obs Model : Type} (o : Oracles Obs Model)
    (s : SelState Word Obs) : Option Model × SelState Word Obs :=
  (base_model o s.X s.lengths s.n_constant, s)

/-- One `num_states` iteration of `SelectorBIC.select`'s `try` body:
fit on the whole-word data, score it on the same data, and compute
`-2 * logL + p * logN` with `p = num_states² + 2·d·num_states − 1`,
`d = model.n_features` and `logN = np.log(len(self.X))`.  `none` means some
step raised and the `except: pass` skipped the candidate. -/
def bicTrial {Word Obs Model : Type} (o : Oracles Obs Model)
    (s : SelState Word Obs) (num_states : ℕ) : Option (ℚ × Model) :=
  match base_model o s.X s.lengths num_states with
  | none => none
  | some m =>
    match o.score m s.X s.lengths with
    | none => none
    | some logL =>
      some (-2 * logL
              + ((num_states : ℚ) ^ 2 + 2 * (o.nfeat m : ℚ) * (num_states : ℚ) - 1)
                * o.rlog s.X.length,
            m)

/-- The `scores` list built by `SelectorBIC.select`'s loop. -/
def bicScores {Word Obs Model : Type} (o : Oracles Obs Model)
    (s : SelState Word Obs) : List (ℚ × Model) :=
  (candRange s).foldl (collect (bicTrial o s)) []

/-- `SelectorBIC.select`: minimum-BIC model if any candidate survived, else
the bare integer `self.n_constant` (`Sum.inr`), exactly as the source's
`return self.n_constant` does. -/
def SelectorBIC.select {Word Obs Model : Type} (o : Oracles Obs Model)
    (s : SelState Word Obs) : (Model ⊕ ℕ) × SelState Word Obs :=
  (match bicScores o s with
   | [] => Sum.inr s.n_constant
   | x :: xs => Sum.inl (pyMinBy xs x).2,
   s)

/-- The entries of `self.hwords.items()` with `word != self.this_word`. -/
def otherWords {Word Obs : Type} [DecidableEq Word] (s : SelState Word Obs) :
    List (Word × (List Obs × List ℕ)) :=
  s.hwords.filter (fun p => decide (p.1 ≠ s.this_word))

/-- One `num_states` iteration of `SelectorDIC.select`'s `try` body: fit on
the whole-word data, score every other word's `(X, lengths)` (first raise
aborts the trial), then score the own word and record
`own − mean(other scores)`.  When the fit returned `None`, the first `.score`
call raises, so the trial yields `none`. -/
def dicTrial {Word Obs Model : Type} [DecidableEq Word] (o : Oracles Obs Model)
    (s : SelState Word Obs) (num_states : ℕ) : Option (ℚ × Model) :=
  match base_model o s.X s.lengths num_states with
  | none => none
  | some m =>
    match (otherWords s).mapM (fun p => o.score m p.2.1 p.2.2) with
    | none => none
    | some scores_temp =>
      match o.score m s.X s.lengths with
      | none => none
      | some own => some (own - npMean scores_temp, m)

/-- The `scores` list built by `SelectorDIC.select`'s loop. -/
def dicScores {Word Obs Model : Type} [DecidableEq Word] (o : Oracles Obs Model)
    (s : SelState Word Obs) : List (ℚ × Model) :=
  (candRange s).foldl (collect (dicTrial o s)) []

/-- `SelectorDIC.select`: maximum-DIC model if any candidate survived, else
the bare integer `self.n_constant`. -/
def SelectorDIC.select {Word Obs Model : Type} [DecidableEq Word]
    (o : Oracles Obs Model) (s : SelState Word Obs) :
    (Model ⊕ ℕ) × SelState Word Obs :=
  (match dicScores o s with
   | [] => Sum.inr s.n_constant
   | x :: xs => Sum.inl (pyMaxBy xs x).2,
   s)

/-- Modelled from the spec: `combine_sequences` is imported from `asl_utils`,
whose source is not among the repository files here.  Per the spec's
SequenceCombiner contract it returns the sequences at the given index
positions, concatenated in the order the indices are given, as a flat
observation list plus the parallel list of per-sequence lengths. -/
def combine_sequences {Obs : Type} (indices : List ℕ) (sequences : List (List Obs)) :
    List Obs × List ℕ :=
  ((indices.map (fun i => sequences.getD i [])).flatten,
   indices.map (fun i => (sequences.getD i []).length))

/-- Start of the `i`-th test block of sklearn `KFold(n_splits=k, shuffle=False)`
on `n` samples. -/
def kfoldTestStart (n k i : ℕ) : ℕ := i * (n / k) + min i (n % k)

/-- Size of the `i`-th test block: the first `n % k` folds get one extra. -/
def kfoldTestSize (n k i : ℕ) : ℕ := n / k + if i < n % k then 1 else 0

/-- sklearn `KFold(n_splits=k, shuffle=False).split` on `n` samples: `none`
models the `ValueError` raised (at the first generator step) when
`n_splits > n_samples`; otherwise the list of `(train_index, test_index)`
pairs, test blocks contiguous and train the ascending complement. -/
def kfoldSplits (n k : ℕ) : Option (List (List ℕ × List ℕ)) :=
  if n < k then none
  else
    some ((List.range k).map (fun i =>
      let te := List.range' (kfoldTestStart n k i) (kfoldTestSize n k i)
      ((List.range n).filter (fun j => decide (j ∉ te)), te)))

/-- The dynamic type of the `likelihoods` variable in `SelectorCV.select`:
initially a list, but the `<= 2`-sequences branch rebinds it to a bare float. -/
inductive NpVal where
  | lst (l : List ℚ)
  | scl (q : ℚ)
deriving DecidableEq

/-- `likelihoods.append(x)`: appends when the variable still holds a list;
on a float it raises `AttributeError` (`none`) — unreachable in a single call
since the branch on `len(self.sequences)` cannot change mid-call. -/
def npAppend : NpVal → ℚ → Option NpVal
  | NpVal.lst l, q => some (NpVal.lst (l ++ [q]))
  | NpVal.scl _, _ => none

/-- `np.mean(likelihoods)`: mean of a list, identity on a bare float. -/
def npValMean : NpVal → ℚ
  | NpVal.lst l => npMean l
  | NpVal.scl q => q

/-- The mutable locals of one `SelectorCV.select` call, together with the
selector fields `self.X`, `self.lengths` that the fold loop assigns. -/
structure CVSt (Obs Model : Type) where
  likelihoods : NpVal
  scores : List (ℚ × Model)
  X : List Obs
  lengths : List ℕ
deriving DecidableEq

/-- The fold loop of one `num_states` trial in `SelectorCV.select`: for each
`(train_index, test_index)` assign `self.X, self.lengths` to the combined
training sequences, fit, score on the combined test sequences, and append the
fold likelihood.  The second component is `some` of the `model` variable when
all folds completed, `none` when a step raised — in which case the state
mutated so far (partial appends, reassigned `self.X`) is kept, as Python
keeps it when the exception unwinds to the candidate's `except`. -/
def cvFoldLoop {Obs Model : Type} (o : Oracles Obs Model)
    (sequences : List (List Obs)) (num_states : ℕ) :
    List (List ℕ × List ℕ) → CVSt Obs Model → Option Model →
      CVSt Obs Model × Option Model
  | [], st, mv => (st, mv)
  | (train_index, test_index) :: rest, st, _ =>
    let XL := combine_sequences train_index sequences
    let XLtest := combine_sequences test_index sequences
    let st1 : CVSt Obs Model := { st with X := XL.1, lengths := XL.2 }
    match base_model o st1.X st1.lengths num_states with
    | none => (st1, none)
    | some m =>
      match o.score m XLtest.1 XLtest.2 with
      | none => (st1, none)
      | some likelihood =>
        match npAppend st1.likelihoods likelihood with
        | none => (st1, none)
        | some lv => cvFoldLoop o sequences num_states rest { st1 with likelihoods := lv } (some m)

/-- One `num_states` iteration of `SelectorCV.select`'s loop, including its
`try/except: pass`.  More than 2 sequences: run the folds (a `KFold` split
error or any fold failure aborts the trial, keeping partial mutations);
on completion append `[np.mean(likelihoods), model]` to `scores`.  Otherwise:
fit once on `self.X` and score it against `self.X` itself, rebinding
`likelihoods` to that single float. -/
def cvStep {Obs Model : Type} (o : Oracles Obs Model)
    (sequences : List (List Obs)) (num_states : ℕ) (st : CVSt Obs Model) :
    CVSt Obs Model :=
  if 2 < sequences.length then
    match kfoldSplits sequences.length 5 with
    | none => st
    | some folds =>
      match cvFoldLoop o sequences num_states folds st none with
      | (st', some m) =>
        { st' with scores := st'.scores ++ [(npValMean st'.likelihoods, m)] }
      | (st', none) => st'
  else
    match base_model o st.X st.lengths num_states with
    | none => st
    | some m =>
      match o.score m st.X st.lengths with
      | none => st
      | some likelihood =>
        { st with likelihoods := NpVal.scl likelihood,
                  scores := st.scores ++ [(npValMean (NpVal.scl likelihood), m)] }

/-- The final local/selector state after `SelectorCV.select`'s candidate loop,
starting from `likelihoods = []`, `scores = []` and the word's whole-word
`self.X`, `self.lengths`. -/
def cvRun {Word Obs Model : Type} (o : Oracles Obs Model)
    (s : SelState Word Obs) : CVSt Obs Model :=
  (candRange s).foldl (fun st n => cvStep o s.sequences n st)
    { likelihoods := NpVal.lst [], scores := [], X := s.X, lengths := s.lengths }

/-- `SelectorCV.select`: maximum-mean model if any candidate survived, else
the bare integer `self.n_constant`; the returned state records that
`self.X`, `self.lengths` keep whatever the last executed fold assigned. -/
def SelectorCV.select {Word Obs Model : Type} (o : Oracles Obs Model)
    (s : SelState Word Obs) : (Model ⊕ ℕ) × SelState Word Obs :=
  let fin : CVSt Obs Model := cvRun o s
  (match fin.scores with
   | [] => Sum.inr s.n_constant
   | x :: xs => Sum.inl (pyMaxBy xs x).2,
   { s with X := fin.X, lengths := fin.lengths })

/-- Log-likelihood values as the recognizer sees them: a float that is either
`float('-Inf')` or an ordinary value. -/
inductive LL where
  | ninf
  | fin (q : ℚ)
deriving DecidableEq

/-- Strict `<` on recognizer likelihoods, mirroring IEEE comparison with
`-inf` (in particular `-inf < -inf` is false). -/
def LL.lt : LL → LL → Bool
  | LL.ninf, LL.fin _ => true
  | LL.fin a, LL.fin b => decide (a < b)
  | _, LL.ninf => false

/-- The scoring oracle consumed by `recognize`: `model.score(X, lengths)` on
one test item; `none` = the call raised, `some v` = it returned the float `v`
(possibly `-inf`). -/
structure RecOracle (Model Item : Type) where
  rscore : Model → Item → Option LL

/-- The three per-item locals of `recognize`: `best_score`, `best_guess` and
the `likelihoods` dict (an insertion-ordered association list). -/
structure RecAcc (Word : Type) where
  bestScore : LL
  bestGuess : Option Word
  likelihoods : List (Word × LL)
deriving DecidableEq

/-- One `word, model` iteration of `recognize`'s inner loop: on success record
the score and update the best on strict `>`; on a raise record `-inf` for the
word and leave the best untouched. -/
def recStep {Word Model Item : Type} (o : RecOracle Model Item) (item : Item)
    (acc : RecAcc Word) (wm : Word × Model) : RecAcc Word :=
  match o.rscore wm.2 item with
  | some v =>
    if LL.lt acc.bestScore v then
      { bestScore := v, bestGuess := some wm.1,
        likelihoods := acc.likelihoods ++ [(wm.1, v)] }
    else { acc with likelihoods := acc.likelihoods ++ [(wm.1, v)] }
  | none => { acc with likelihoods := acc.likelihoods ++ [(wm.1, LL.ninf)] }

/-- The inner loop of `recognize` over all models for one test item, starting
from `best_score = -inf`, `best_guess = None`, `likelihoods = {}`. -/
def recItem {Word Model Item : Type} (o : RecOracle Model Item)
    (models : List (Word × Model)) (item : Item) : RecAcc Word :=
  models.foldl (recStep o item) { bestScore := LL.ninf, bestGuess := none, likelihoods := [] }

/-- `recognize`: for each test item (in `test_set` iteration order) append the
item's likelihood dict to `probabilities` and its best guess to `guesses`. -/
def recognize {Word Model Item : Type} (o : RecOracle Model Item)
    (models : List (Word × Model)) (test_set : List Item) :
    List (List (Word × LL)) × List (Option Word) :=
  (test_set.map (fun item => (recItem o models item).likelihoods),
   test_set.map (fun item => (recItem o models item).bestGuess))

/-! Specification-side auxiliary definitions, used to state the theorems. -/

/-- An oracle assignment in which no fit and no score ever raises, built from
the underlying total functions.  Used to state what the selectors compute when
every trial succeeds. -/
def totalOracles {Obs Model : Type} (fitF : ℕ → List Obs → List ℕ → Model)
    (scoreF : Model → List Obs → List ℕ → ℚ) (nf : Model → ℕ) (lg : ℕ → ℚ) :
    Oracles Obs Model :=
  { fit := fun n X L => some (fitF n X L),
    score := fun m X L => some (scoreF m X L),
    nfeat := nf, rlog := lg }

/-- The validation log-likelihood of one cross-validation fold for candidate
`n`: fit on the combined training sequences, score on the combined test
sequences. -/
def foldVal {Obs Model : Type} (fitF : ℕ → List Obs → List ℕ → Model)
    (scoreF : Model → List Obs → List ℕ → ℚ) (sequences : List (List Obs))
    (n : ℕ) (fold : List ℕ × List ℕ) : ℚ :=
  scoreF (fitF n (combine_sequences fold.1 sequences).1 (combine_sequences fold.1 sequences).2)
    (combine_sequences fold.2 sequences).1 (combine_sequences fold.2 sequences).2

/-- The list of per-fold validation log-likelihoods of candidate `n` alone. -/
def cvFoldValList {Obs Model : Type} (fitF : ℕ → List Obs → List ℕ → Model)
    (scoreF : Model → List Obs → List ℕ → ℚ) (sequences : List (List Obs))
    (folds : List (List ℕ × List ℕ)) (n : ℕ) : List ℚ :=
  folds.map (foldVal fitF scoreF sequences n)

/-- The model left in the `model` variable after candidate `n`'s fold loop:
the one fitted on the last fold's training split. -/
def cvLastModel {Obs Model : Type} (fitF : ℕ → List Obs → List ℕ → Model)
    (sequences : List (List Obs)) (folds : List (List ℕ × List ℕ)) (n : ℕ) : Model :=
  fitF n (combine_sequences (folds.getLastD ([], [])).1 sequences).1
    (combine_sequences (folds.getLastD ([], [])).1 sequences).2

/-- The `scores` entries `SelectorCV.select` records when every trial succeeds,
starting from an already-accumulated list `acc` of fold likelihoods: each
candidate's recorded criterion is the mean of `acc` extended by all fold
likelihoods up to and including that candidate. -/
def cvAccScores {Obs Model : Type} (fitF : ℕ → List Obs → List ℕ → Model)
    (scoreF : Model → List Obs → List ℕ → ℚ) (sequences : List (List Obs))
    (folds : List (List ℕ × List ℕ)) : List ℚ → List ℕ → List (ℚ × Model)
  | _, [] => []
  | acc, n :: rest =>
    (npMean (acc ++ cvFoldValList fitF scoreF sequences folds n),
     cvLastModel fitF sequences folds n)
      :: cvAccScores fitF scoreF sequences folds
          (acc ++ cvFoldValList fitF scoreF sequences folds n) rest

/-- The `scores` list `SelectorCV.select` builds on the degenerate
(2 or fewer sequences) path: per candidate, one fit on the whole-word data and
one self-score, kept only when both succeed. -/
def cvSmallScores {Obs Model : Type} (o : Oracles Obs Model)
    (X : List Obs) (lengths : List ℕ) (cands : List ℕ) : List (ℚ × Model) :=
  cands.filterMap (fun n =>
    (o.fit n X lengths).bind (fun m => (o.score m X lengths).map (fun ll => (ll, m))))

/-- The likelihood-dict entry `recognize` records for one `(word, model)` pair
on one item: the returned score on success, `-inf` on a raise. -/
def recEntry {Word Model Item : Type} (o : RecOracle Model Item) (item : Item)
    (wm : Word × Model) : Word × LL :=
  (wm.1,
   match o.rscore wm.2 item with
   | some v => v
   | none => LL.ninf)

/-- Binary maximum on recognizer likelihoods. -/
def llmax2 (a b : LL) : LL := if LL.lt a b then b else a

/-- The greatest likelihood in a list (`-inf` for the empty list). -/
def llMaxVal (l : List LL) : LL := l.foldl llmax2 LL.ninf

/-- The word recognized by a single left-to-right strict-`>` scan: `none` when
no entry exceeds `-inf`, otherwise the first word attaining the greatest
recorded likelihood. -/
def firstArgmax {Word : Type} (l : List (Word × LL)) : Option Word :=
  if llMaxVal (l.map Prod.snd) = LL.ninf then none
  else (l.find? (fun p => decide (p.2 = llMaxVal (l.map Prod.snd)))).map Prod.fst

/-- The running `(best_score, best_guess)` update of `recognize`'s scan, as a
function of the recorded entry. -/
def updBest {Word : Type} (b : LL × Option Word) (p : Word × LL) : LL × Option Word :=
  if LL.lt b.1 p.2 then (p.2, some p.1) else b

/-! Concrete instances used by the closed counterexample and witness
theorems. -/

/-- Oracles under which every fit raises (and every score raises too). -/
def oFail : Oracles ℕ ℕ :=
  { fit := fun _ _ _ => none, score := fun _ _ _ => none,
    nfeat := fun _ => 1, rlog := fun _ => 0 }

/-- A one-sequence word with search range `[2, 3]` and fallback constant 3. -/
def sA : SelState ℕ ℕ :=
  { words := [(0, [[0]])], hwords := [(0, ([0], [1]))],
    sequences := [[0]], X := [0], lengths := [1],
    this_word := 0, n_constant := 3, min_n_components := 2, max_n_components := 3 }

/-- A total fitter whose model is just the requested state count. -/
def fitF0 : ℕ → List ℕ → List ℕ → ℕ := fun n _ _ => n

/-- A total scorer: models with 2 states score 0, all others score 10. -/
def scoreF0 : ℕ → List ℕ → List ℕ → ℚ := fun m _ _ => if m = 2 then 0 else 10

/-- Total oracles built from `fitF0` and `scoreF0`. -/
def oCv : Oracles ℕ ℕ := totalOracles fitF0 scoreF0 (fun _ => 1) (fun _ => 0)

/-- A five-sequence word (one frame per sequence) with search range `[2, 3]`. -/
def sCv : SelState ℕ ℕ :=
  { words := [(0, [[0], [1], [2], [3], [4]])],
    hwords := [(0, ([0, 1, 2, 3, 4], [1, 1, 1, 1, 1]))],
    sequences := [[0], [1], [2], [3], [4]], X := [0, 1, 2, 3, 4],
    lengths := [1, 1, 1, 1, 1],
    this_word := 0, n_constant := 3, min_n_components := 2, max_n_components := 3 }

/-- The `KFold` partition of 5 samples into 5 folds. -/
def folds5 : List (List ℕ × List ℕ) :=
  [([1, 2, 3, 4], [0]), ([0, 2, 3, 4], [1]), ([0, 1, 3, 4], [2]),
   ([0, 1, 2, 4], [3]), ([0, 1, 2, 3], [4])]

/-- Oracles where only the 2-state fit succeeds, every score returning 6. -/
def oB : Oracles ℕ ℕ :=
  { fit := fun n _ _ => if n = 2 then some n else none,
    score := fun _ _ _ => some 6,
    nfeat := fun _ => 1, rlog := fun _ => 1 }

/-- Oracles for the DIC witness: only the 2-state fit succeeds; scoring the
data `[5]` (the other word's) yields 4, anything else yields 6. -/
def oD : Oracles ℕ ℕ :=
  { fit := fun n _ _ => if n = 2 then some n else none,
    score := fun _ X _ => some (if X = [5] then 4 else 6),
    nfeat := fun _ => 1, rlog := fun _ => 0 }

/-- Oracles for the DIC exclusion witness: only the 2-state fit succeeds, and
scoring the other word's data `[5]` raises. -/
def oD2 : Oracles ℕ ℕ :=
  { fit := fun n _ _ => if n = 2 then some n else none,
    score := fun _ X _ => if X = [5] then none else some 6,
    nfeat := fun _ => 1, rlog := fun _ => 0 }

/-- A two-word state: own word 0 with data `[0]`, other word 1 with data `[5]`. -/
def sD : SelState ℕ ℕ :=
  { words := [(0, [[0]]), (1, [[5]])],
    hwords := [(0, ([0], [1])), (1, ([5], [1]))],
    sequences := [[0]], X := [0], lengths := [1],
    this_word := 0, n_constant := 3, min_n_components := 2, max_n_components := 3 }

/-- A recognizer oracle whose every score call succeeds returning `-inf`. -/
def oRecNinf : RecOracle ℕ ℕ := { rscore := fun _ _ => some LL.ninf }

/-- A recognizer oracle whose every score call raises. -/
def oRecFail : RecOracle ℕ ℕ := { rscore := fun _ _ => none }

/-- A mixed recognizer oracle: model 1 scores 5, model 2 raises, every other
model succeeds with `-inf`. -/
def oRecMix : RecOracle ℕ ℕ :=
  { rscore := fun m _ =>
      if m = 1 then some (LL.fin 5) else if m = 2 then none else some LL.ninf }

/-! Helper lemmas. -/

lemma foldl_collect {α β : Type} (f : α → Option β) :
    ∀ (cs : List α) (acc : List β),
      cs.foldl (collect f) acc = acc ++ cs.filterMap f := by
  intro cs
  induction cs with
  | nil => intro acc; simp
  | cons n cs ih =>
    intro acc
    cases h : f n with
    | none => simp [List.foldl_cons, collect, h, ih, List.filterMap_cons]
    | some r => simp [List.foldl_cons, collect, h, ih, List.filterMap_cons]

lemma pyMinBy_mem {M : Type} :
    ∀ (xs : List (ℚ × M)) (b : ℚ × M), pyMinBy xs b = b ∨ pyMinBy xs b ∈ xs := by
  intro xs
  induction xs with
  | nil => intro b; exact Or.inl rfl
  | cons x xs ih =>
    intro b
    rw [pyMinBy]
    rcases ih (if x.1 < b.1 then x else b) with h | h
    · rw [h]
      by_cases hc : x.1 < b.1
      · simp [hc]
      · simp [hc]
    · exact Or.inr (List.mem_cons_of_mem _ h)

lemma pyMinBy_le {M : Type} :
    ∀ (xs : List (ℚ × M)) (b : ℚ × M),
      (pyMinBy xs b).1 ≤ b.1 ∧ ∀ p ∈ xs, (pyMinBy xs b).1 ≤ p.1 := by
  intro xs
  induction xs with
  | nil => intro b; exact ⟨le_refl _, by simp⟩
  | cons x xs ih =>
    intro b
    rw [pyMinBy]
    rcases ih (if x.1 < b.1 then x else b) with ⟨h1, h2⟩
    by_cases hc : x.1 < b.1
    · rw [if_pos hc] at h1 h2 ⊢
      refine ⟨le_trans h1 (le_of_lt hc), ?_⟩
      intro p hp
      rcases List.mem_cons.mp hp with rfl | hp
      · exact h1
      · exact h2 p hp
    · rw [if_neg hc] at h1 h2 ⊢
      refine ⟨h1, ?_⟩
      intro p hp
      rcases List.mem_cons.mp hp with rfl | hp
      · exact le_trans h1 (le_of_not_lt hc)
      · exact h2 p hp

lemma pyMaxBy_mem {M : Type} :
    ∀ (xs : List (ℚ × M)) (b : ℚ × M), pyMaxBy xs b = b ∨ pyMaxBy xs b ∈ xs := by
  intro xs
  induction xs with
  | nil => intro b; exact Or.inl rfl
  | cons x xs ih =>
    intro b
    rw [pyMaxBy]
    rcases ih (if b.1 < x.1 then x else b) with h | h
    · rw [h]
      by_cases hc : b.1 < x.1
      · simp [hc]
      · simp [hc]
    · exact Or.inr (List.mem_cons_of_mem _ h)

lemma pyMaxBy_ge {M : Type} :
    ∀ (xs : List (ℚ × M)) (b : ℚ × M),
      b.1 ≤ (pyMaxBy xs b).1 ∧ ∀ p ∈ xs, p.1 ≤ (pyMaxBy xs b).1 := by
  intro xs
  induction xs with
  | nil => intro b; exact ⟨le_refl _, by simp⟩
  | cons x xs ih =>
    intro b
    rw [pyMaxBy]
    rcases ih (if b.1 < x.1 then x else b) with ⟨h1, h2⟩
    by_cases hc : b.1 < x.1
    · rw [if_pos hc] at h1 h2 ⊢
      refine ⟨le_trans (le_of_lt hc) h1, ?_⟩
      intro p hp
      rcases List.mem_cons.mp hp with rfl | hp
      · exact h1
      · exact h2 p hp
    · rw [if_neg hc] at h1 h2 ⊢
      refine ⟨h1, ?_⟩
      intro p hp
      rcases List.mem_cons.mp hp with rfl | hp
      · exact le_trans (le_of_not_lt hc) h1
      · exact h2 p hp

lemma mapM_some_of {α β : Type} (g : α → Option β) (f : α → β) :
    ∀ l : List α, (∀ x ∈ l, g x = some (f x)) → l.mapM g = some (l.map f) := by
  intro l
  induction l with
  | nil => intro _; rfl
  | cons x xs ih =>
    intro h
    rw [List.mapM_cons, h x (List.mem_cons_self x xs),
      ih (fun y hy => h y (List.mem_cons_of_mem x hy))]
    rfl

lemma mapM_none_of {α β : Type} (g : α → Option β) :
    ∀ (l : List α) (x : α), x ∈ l → g x = none → l.mapM g = none := by
  intro l
  induction l with
  | nil => intro x hx; exact absurd hx (List.not_mem_nil x)
  | cons y ys ih =>
    intro x hx hgx
    rw [List.mapM_cons]
    rcases List.mem_cons.mp hx with rfl | hx
    · rw [hgx]; rfl
    · cases hgy : g y with
      | none => rfl
      | some v => rw [ih x hx hgx]; rfl

lemma find?_append_none {α : Type} (p : α → Bool) :
    ∀ (l l' : List α), l.find? p = none → (l ++ l').find? p = l'.find? p := by
  intro l
  induction l with
  | nil => intro l' _; rfl
  | cons x xs ih =>
    intro l' h
    cases hp : p x with
    | true =>
      rw [List.find?_cons_of_pos _ hp] at h
      exact absurd h (by simp)
    | false =>
      rw [List.find?_cons_of_neg _ (by simp [hp])] at h
      rw [List.cons_append, List.find?_cons_of_neg _ (by simp [hp])]
      exact ih l' h

lemma find?_append_some {α : Type} (p : α → Bool) :
    ∀ (l l' : List α) (a : α), l.find? p = some a → (l ++ l').find? p = some a := by
  intro l
  induction l with
  | nil => intro l' a h; exact absurd h (by simp)
  | cons x xs ih =>
    intro l' a h
    cases hp : p x with
    | true =>
      rw [List.find?_cons_of_pos _ hp] at h
      rw [List.cons_append, List.find?_cons_of_pos _ hp]
      exact h
    | false =>
      rw [List.find?_cons_of_neg _ (by simp [hp])] at h
      rw [List.cons_append, List.find?_cons_of_neg _ (by simp [hp])]
      exact ih l' a h

lemma getLastD_irrel {α : Type} :
    ∀ (l : List α), l ≠ [] → ∀ (d d' : α), l.getLastD d = l.getLastD d' := by
  intro l
  induction l with
  | nil => intro h; exact absurd rfl h
  | cons x xs ih =>
    intro _ d d'
    cases hx : xs with
    | nil => rfl
    | cons y ys => simp only [List.getLastD_cons]

lemma kfoldSplits_length {n k : ℕ} {folds : List (List ℕ × List ℕ)}
    (h : kfoldSplits n k = some folds) : folds.length = k := by
  rw [kfoldSplits] at h
  by_cases hc : n < k
  · rw [if_pos hc] at h; exact absurd h (by simp)
  · rw [if_neg hc] at h
    cases h
    simp

lemma LL.lt_ninf_right (a : LL) : LL.lt a LL.ninf = false := by
  cases a <;> rfl

lemma LL.lt_irrefl (a : LL) : LL.lt a a = false := by
  cases a with
  | ninf => rfl
  | fin q => simp [LL.lt]

lemma LL.lt_asymm {a b : LL} (h : LL.lt a b = true) : LL.lt b a = false := by
  cases a with
  | ninf => cases b <;> rfl
  | fin q =>
    cases b with
    | ninf => exact absurd h (by simp [LL.lt])
    | fin r =>
      simp [LL.lt] at h ⊢
      linarith

lemma LL.ge_trans {a b c : LL} (hab : LL.lt a b = false) (hbc : LL.lt b c = false) :
    LL.lt a c = false := by
  cases c with
  | ninf => exact LL.lt_ninf_right a
  | fin qc =>
    cases b with
    | ninf => exact absurd hbc (by simp [LL.lt])
    | fin qb =>
      cases a with
      | ninf => exact absurd hab (by simp [LL.lt])
      | fin qa =>
        simp [LL.lt] at hab hbc ⊢
        linarith

lemma LL.eq_ninf_of_not_ninf_lt {v : LL} (h : LL.lt LL.ninf v = false) : v = LL.ninf := by
  cases v with
  | ninf => rfl
  | fin q => exact absurd h (by simp [LL.lt])

lemma llmax2_lt_left (a b : LL) : LL.lt (llmax2 a b) a = false := by
  rw [llmax2]
  cases h : LL.lt a b with
  | true => rw [if_pos rfl]; exact LL.lt_asymm h
  | false => rw [if_neg (by simp)]; exact LL.lt_irrefl a

lemma llmax2_lt_right (a b : LL) : LL.lt (llmax2 a b) b = false := by
  rw [llmax2]
  cases h : LL.lt a b with
  | true => rw [if_pos rfl]; exact LL.lt_irrefl b
  | false => rw [if_neg (by simp)]; exact h

lemma foldl_llmax2_ge_init : ∀ (l : List LL) (init : LL),
    LL.lt (l.foldl llmax2 init) init = false := by
  intro l
  induction l with
  | nil => intro init; exact LL.lt_irrefl init
  | cons x xs ih =>
    intro init
    rw [List.foldl_cons]
    exact LL.ge_trans (ih (llmax2 init x)) (llmax2_lt_left init x)

lemma foldl_llmax2_ge_mem : ∀ (l : List LL) (init v : LL), v ∈ l →
    LL.lt (l.foldl llmax2 init) v = false := by
  intro l
  induction l with
  | nil => intro init v hv; exact absurd hv (List.not_mem_nil v)
  | cons x xs ih =>
    intro init v hv
    rw [List.foldl_cons]
    rcases List.mem_cons.mp hv with rfl | hv
    · exact LL.ge_trans (foldl_llmax2_ge_init xs (llmax2 init v)) (llmax2_lt_right init v)
    · exact ih (llmax2 init x) v hv

lemma foldl_llmax2_mem_or_init : ∀ (l : List LL) (init : LL),
    l.foldl llmax2 init = init ∨ l.foldl llmax2 init ∈ l := by
  intro l
  induction l with
  | nil => intro init; exact Or.inl rfl
  | cons x xs ih =>
    intro init
    rw [List.foldl_cons]
    rcases ih (llmax2 init x) with h | h
    · rw [h, llmax2]
      cases hc : LL.lt init x with
      | true => rw [if_pos rfl]; exact Or.inr (List.mem_cons_self x xs)
      | false => rw [if_neg (by simp)]; exact Or.inl rfl
    · exact Or.inr (List.mem_cons_of_mem x h)

lemma llMaxVal_append_singleton (vs : List LL) (v : LL) :
    llMaxVal (vs ++ [v]) = llmax2 (llMaxVal vs) v := by
  rw [llMaxVal, llMaxVal, List.foldl_append, List.foldl_cons, List.foldl_nil]

lemma llMaxVal_ge_mem {vs : List LL} {v : LL} (hv : v ∈ vs) :
    LL.lt (llMaxVal vs) v = false :=
  foldl_llmax2_ge_mem vs LL.ninf v hv

lemma llMaxVal_mem {vs : List LL} (h : llMaxVal vs ≠ LL.ninf) : llMaxVal vs ∈ vs := by
  rcases foldl_llmax2_mem_or_init vs LL.ninf with h0 | h0
  · exact absurd h0 h
  · exact h0

lemma updBest_scan {Word : Type} : ∀ (l : List (Word × LL)),
    l.foldl updBest (LL.ninf, none) = (llMaxVal (l.map Prod.snd), firstArgmax l) := by
  intro l
  induction l using List.reverseRecOn with
  | nil => rfl
  | append_singleton l x ih =>
    rw [List.foldl_append, List.foldl_cons, List.foldl_nil, ih]
    have hmap : (l ++ [x]).map Prod.snd = l.map Prod.snd ++ [x.2] := by simp
    rw [updBest]
    cases hc : LL.lt (llMaxVal (l.map Prod.snd)) x.2 with
    | true =>
      rw [if_pos rfl]
      have hxne : x.2 ≠ LL.ninf := by
        intro hx
        rw [hx, LL.lt_ninf_right] at hc
        exact Bool.noConfusion hc
      have hmax : llMaxVal ((l ++ [x]).map Prod.snd) = x.2 := by
        rw [hmap, llMaxVal_append_singleton, llmax2, if_pos hc]
      have hnone : l.find? (fun p => decide (p.2 = x.2)) = none := by
        rw [List.find?_eq_none]
        intro p hp
        simp only [decide_eq_true_eq]
        intro hpx
        have h2 := llMaxVal_ge_mem (List.mem_map_of_mem Prod.snd hp)
        rw [hpx, hc] at h2
        exact Bool.noConfusion h2
      rw [firstArgmax, hmax, if_neg hxne]
      rw [find?_append_none _ l [x] hnone, List.find?_cons_of_pos _ (by simp)]
      rfl
    | false =>
      rw [if_neg (by simp)]
      cases hm : llMaxVal (l.map Prod.snd) with
      | ninf =>
        have hx2 : x.2 = LL.ninf := by
          apply LL.eq_ninf_of_not_ninf_lt
          rw [← hm]
          exact hc
        have hmax : llMaxVal ((l ++ [x]).map Prod.snd) = LL.ninf := by
          rw [hmap, llMaxVal_append_singleton, hm, hx2, llmax2, LL.lt_irrefl, if_neg (by simp)]
        rw [firstArgmax, firstArgmax, hm, hmax]
        simp
      | fin q =>
        rw [hm] at hc
        have hmax : llMaxVal ((l ++ [x]).map Prod.snd) = LL.fin q := by
          rw [hmap, llMaxVal_append_singleton, hm, llmax2, if_neg (by simp [hc])]
        have hmem : (LL.fin q) ∈ l.map Prod.snd := by
          rw [← hm]
          exact llMaxVal_mem (by rw [hm]; simp)
        rcases List.mem_map.mp hmem with ⟨p, hp, hpv⟩
        have hsome : (l.find? (fun p1 => decide (p1.2 = LL.fin q))).isSome := by
          rw [List.find?_isSome]
          exact ⟨p, hp, by simp [hpv]⟩
        rcases Option.isSome_iff_exists.mp hsome with ⟨a, ha⟩
        simp only [firstArgmax, hm, hmax]
        rw [if_neg (by simp), if_neg (by simp)]
        rw [find?_append_some _ l [x] a ha, ha]

lemma recStep_likelihoods {Word Model Item : Type} (o : RecOracle Model Item) (item : Item) :
    ∀ (ms : List (Word × Model)) (acc : RecAcc Word),
      (ms.foldl (recStep o item) acc).likelihoods
        = acc.likelihoods ++ ms.map (recEntry o item) := by
  intro ms
  induction ms with
  | nil => intro acc; simp
  | cons wm ms ih =>
    intro acc
    rw [List.foldl_cons, List.map_cons, ih]
    cases h : o.rscore wm.2 item with
    | none => simp [recStep, recEntry, h]
    | some v =>
      cases hc : LL.lt acc.bestScore v with
      | true => simp [recStep, recEntry, h, hc]
      | false => simp [recStep, recEntry, h, hc]

lemma recStep_best {Word Model Item : Type} (o : RecOracle Model Item) (item : Item) :
    ∀ (ms : List (Word × Model)) (acc : RecAcc Word),
      ((ms.foldl (recStep o item) acc).bestScore,
       (ms.foldl (recStep o item) acc).bestGuess)
        = (ms.map (recEntry o item)).foldl updBest (acc.bestScore, acc.bestGuess) := by
  intro ms
  induction ms with
  | nil => intro acc; simp
  | cons wm ms ih =>
    intro acc
    rw [List.foldl_cons, List.map_cons, List.foldl_cons, ih]
    have hstep : ((recStep o item acc wm).bestScore, (recStep o item acc wm).bestGuess)
        = updBest (acc.bestScore, acc.bestGuess) (recEntry o item wm) := by
      cases h : o.rscore wm.2 item with
      | none => simp [recStep, recEntry, updBest, h, LL.lt_ninf_right]
      | some v =>
        cases hc : LL.lt acc.bestScore v with
        | true => simp [recStep, recEntry, updBest, h, hc]
        | false => simp [recStep, recEntry, updBest, h, hc]
    rw [← hstep]

lemma cvFoldLoop_cons_total {Obs Model : Type} (fitF : ℕ → List Obs → List ℕ → Model)
    (scoreF : Model → List Obs → List ℕ → ℚ) (nf : Model → ℕ) (lg : ℕ → ℚ)
    (seqs : List (List Obs)) (n : ℕ) (tr te : List ℕ) (rest : List (List ℕ × List ℕ))
    (st : CVSt Obs Model) (acc : List ℚ) (mv : Option Model)
    (hlik : st.likelihoods = NpVal.lst acc) :
    cvFoldLoop (totalOracles fitF scoreF nf lg) seqs n ((tr, te) :: rest) st mv =
      cvFoldLoop (totalOracles fitF scoreF nf lg) seqs n rest
        { st with likelihoods := NpVal.lst (acc ++ [foldVal fitF scoreF seqs n (tr, te)]),
                  X := (combine_sequences tr seqs).1,
                  lengths := (combine_sequences tr seqs).2 }
        (some (fitF n (combine_sequences tr seqs).1 (combine_sequences tr seqs).2)) := by
  rw [cvFoldLoop]
  simp [base_model, totalOracles, hlik, npAppend, foldVal]

lemma cvFoldLoop_total {Obs Model : Type} (fitF : ℕ → List Obs → List ℕ → Model)
    (scoreF : Model → List Obs → List ℕ → ℚ) (nf : Model → ℕ) (lg : ℕ → ℚ)
    (seqs : List (List Obs)) (n : ℕ) :
    ∀ (folds : List (List ℕ × List ℕ)) (st : CVSt Obs Model) (acc : List ℚ)
      (mv : Option Model), st.likelihoods = NpVal.lst acc → folds ≠ [] →
      cvFoldLoop (totalOracles fitF scoreF nf lg) seqs n folds st mv =
        ({ st with
            likelihoods := NpVal.lst (acc ++ cvFoldValList fitF scoreF seqs folds n),
            X := (combine_sequences (folds.getLastD ([], [])).1 seqs).1,
            lengths := (combine_sequences (folds.getLastD ([], [])).1 seqs).2 },
         some (cvLastModel fitF seqs folds n)) := by
  intro folds
  induction folds with
  | nil => intro st acc mv _ hne; exact absurd rfl hne
  | cons f rest ih =>
    intro st acc mv hlik _
    obtain ⟨tr, te⟩ := f
    rw [cvFoldLoop_cons_total fitF scoreF nf lg seqs n tr te rest st acc mv hlik]
    cases hrest : rest with
    | nil =>
      subst hrest
      rw [cvFoldLoop]
      simp [cvFoldValList, cvLastModel, foldVal]
    | cons g gs =>
      subst hrest
      rw [ih ({ st with
            likelihoods := NpVal.lst (acc ++ [foldVal fitF scoreF seqs n (tr, te)]),
            X := (combine_sequences tr seqs).1,
            lengths := (combine_sequences tr seqs).2 })
          (acc ++ [foldVal fitF scoreF seqs n (tr, te)])
          (some (fitF n (combine_sequences tr seqs).1 (combine_sequences tr seqs).2))
          rfl (by simp)]
      have h1 : ((tr, te) :: g :: gs).getLastD ([], []) = (g :: gs).getLastD ([], []) := by
        rw [List.getLastD_cons]
        exact getLastD_irrel (g :: gs) (by simp) (tr, te) ([], [])
      have h2 : cvLastModel fitF seqs ((tr, te) :: g :: gs) n
          = cvLastModel fitF seqs (g :: gs) n := by
        rw [cvLastModel, cvLastModel, List.getLastD_cons,
          getLastD_irrel (g :: gs) (by simp) (tr, te) ([], [])]
      have h3 : cvFoldValList fitF scoreF seqs ((tr, te) :: g :: gs) n
          = foldVal fitF scoreF seqs n (tr, te) :: cvFoldValList fitF scoreF seqs (g :: gs) n := by
        rw [cvFoldValList, cvFoldValList, List.map_cons]
      rw [h1, h2, h3]
      simp [List.append_assoc]

lemma cvStep_total {Obs Model : Type} (fitF : ℕ → List Obs → List ℕ → Model)
    (scoreF : Model → List Obs → List ℕ → ℚ) (nf : Model → ℕ) (lg : ℕ → ℚ)
    (seqs : List (List Obs)) (n : ℕ) (folds : List (List ℕ × List ℕ))
    (h2 : 2 < seqs.length) (hk : kfoldSplits seqs.length 5 = some folds)
    (st : CVSt Obs Model) (acc : List ℚ) (hlik : st.likelihoods = NpVal.lst acc) :
    cvStep (totalOracles fitF scoreF nf lg) seqs n st =
      { st with likelihoods := NpVal.lst (acc ++ cvFoldValList fitF scoreF seqs folds n),
                X := (combine_sequences (folds.getLastD ([], [])).1 seqs).1,
                lengths := (combine_sequences (folds.getLastD ([], [])).1 seqs).2,
                scores := st.scores
                  ++ [(npMean (acc ++ cvFoldValList fitF scoreF seqs folds n),
                       cvLastModel fitF seqs folds n)] } := by
  have hne : folds ≠ [] := by
    have hlen := kfoldSplits_length hk
    intro h0
    rw [h0] at hlen
    simp at hlen
  have hred : cvStep (totalOracles fitF scoreF nf lg) seqs n st
      = (match cvFoldLoop (totalOracles fitF scoreF nf lg) seqs n folds st none with
         | (st', some m) =>
           { st' with scores := st'.scores ++ [(npValMean st'.likelihoods, m)] }
         | (st', none) => st') := by
    rw [cvStep, if_pos h2, hk]
  rw [hred, cvFoldLoop_total fitF scoreF nf lg seqs n folds st acc none hlik hne]
  simp [npValMean]

lemma cvAccScores_nil {Obs Model : Type} (fitF : ℕ → List Obs → List ℕ → Model)
    (scoreF : Model → List Obs → List ℕ → ℚ) (seqs : List (List Obs))
    (folds : List (List ℕ × List ℕ)) (acc : List ℚ) :
    cvAccScores fitF scoreF seqs folds acc [] = ([] : List (ℚ × Model)) := rfl

lemma cvAccScores_cons {Obs Model : Type} (fitF : ℕ → List Obs → List ℕ → Model)
    (scoreF : Model → List Obs → List ℕ → ℚ) (seqs : List (List Obs))
    (folds : List (List ℕ × List ℕ)) (acc : List ℚ) (n : ℕ) (rest : List ℕ) :
    cvAccScores fitF scoreF seqs folds acc (n :: rest)
      = ((npMean (acc ++ cvFoldValList fitF scoreF seqs folds n),
          cvLastModel fitF seqs folds n)
          : ℚ × Model)
        :: cvAccScores fitF scoreF seqs folds
            (acc ++ cvFoldValList fitF scoreF seqs folds n) rest := rfl

lemma cvLoop_total {Obs Model : Type} (fitF : ℕ → List Obs → List ℕ → Model)
    (scoreF : Model → List Obs → List ℕ → ℚ) (nf : Model → ℕ) (lg : ℕ → ℚ)
    (seqs : List (List Obs)) (folds : List (List ℕ × List ℕ))
    (h2 : 2 < seqs.length) (hk : kfoldSplits seqs.length 5 = some folds) :
    ∀ (cs : List ℕ) (st : CVSt Obs Model) (acc : List ℚ),
      st.likelihoods = NpVal.lst acc →
      ((cs.foldl (fun st1 n => cvStep (totalOracles fitF scoreF nf lg) seqs n st1) st).scores
          = st.scores ++ cvAccScores fitF scoreF seqs folds acc cs)
      ∧ ((cs.foldl (fun st1 n => cvStep (totalOracles fitF scoreF nf lg) seqs n st1) st).likelihoods
          = NpVal.lst (acc ++ (cs.map (cvFoldValList fitF scoreF seqs folds)).flatten)) := by
  intro cs
  induction cs with
  | nil =>
    intro st acc hlik
    constructor
    · simp [cvAccScores]
    · simp [hlik]
  | cons n rest ih =>
    intro st acc hlik
    rw [List.foldl_cons, cvStep_total fitF scoreF nf lg seqs n folds h2 hk st acc hlik]
    rcases ih ({ st with
        likelihoods := NpVal.lst (acc ++ cvFoldValList fitF scoreF seqs folds n),
        X := (combine_sequences (folds.getLastD ([], [])).1 seqs).1,
        lengths := (combine_sequences (folds.getLastD ([], [])).1 seqs).2,
        scores := st.scores
          ++ [(npMean (acc ++ cvFoldValList fitF scoreF seqs folds n),
               cvLastModel fitF seqs folds n)] })
      (acc ++ cvFoldValList fitF scoreF seqs folds n) rfl with ⟨hs, hl⟩
    constructor
    · rw [hs, cvAccScores_cons]
      simp [List.append_assoc]
    · rw [hl]
      simp [List.append_assoc]

lemma cvAccScores_length {Obs Model : Type} (fitF : ℕ → List Obs → List ℕ → Model)
    (scoreF : Model → List Obs → List ℕ → ℚ) (seqs : List (List Obs))
    (folds : List (List ℕ × List ℕ)) :
    ∀ (cs : List ℕ) (acc : List ℚ),
      (cvAccScores fitF scoreF seqs folds acc cs : List (ℚ × Model)).length = cs.length := by
  intro cs
  induction cs with
  | nil => intro acc; rfl
  | cons n rest ih =>
    intro acc
    rw [cvAccScores_cons, List.length_cons, ih, List.length_cons]

lemma cvAccScores_get {Obs Model : Type} (fitF : ℕ → List Obs → List ℕ → Model)
    (scoreF : Model → List Obs → List ℕ → ℚ) (seqs : List (List Obs))
    (folds : List (List ℕ × List ℕ)) :
    ∀ (cs : List ℕ) (acc : List ℚ) (i : ℕ) (hi : i < cs.length),
      (cvAccScores fitF scoreF seqs folds acc cs : List (ℚ × Model)).get
          ⟨i, by rw [cvAccScores_length]; exact hi⟩
        = (npMean (acc ++ ((cs.take (i + 1)).map (cvFoldValList fitF scoreF seqs folds)).flatten),
           cvLastModel fitF seqs folds (cs.get ⟨i, hi⟩)) := by
  intro cs
  induction cs with
  | nil => intro acc i hi; exact absurd hi (by simp)
  | cons n rest ih =>
    intro acc i hi
    cases i with
    | zero =>
      simp [cvAccScores_cons]
    | succ j =>
      have hj : j < rest.length := Nat.lt_of_succ_lt_succ hi
      have hih := ih (acc ++ cvFoldValList fitF scoreF seqs folds n) j hj
      simp only [cvAccScores_cons, List.get_cons_succ, List.take_succ_cons,
        List.map_cons, List.flatten_cons]
      rw [hih]
      simp [List.append_assoc]

lemma cvLoop_small {Obs Model : Type} (o : Oracles Obs Model) (seqs : List (List Obs))
    (hle : ¬ 2 < seqs.length) :
    ∀ (cs : List ℕ) (st : CVSt Obs Model),
      ((cs.foldl (fun st1 n => cvStep o seqs n st1) st).scores
        = st.scores ++ cvSmallScores o st.X st.lengths cs)
      ∧ (cs.foldl (fun st1 n => cvStep o seqs n st1) st).X = st.X
      ∧ (cs.foldl (fun st1 n => cvStep o seqs n st1) st).lengths = st.lengths := by
  intro cs
  induction cs with
  | nil => intro st; exact ⟨by simp [cvSmallScores], rfl, rfl⟩
  | cons n rest ih =>
    intro st
    rw [List.foldl_cons]
    cases h1 : o.fit n st.X st.lengths with
    | none =>
      have hstep : cvStep o seqs n st = st := by
        simp [cvStep, hle, base_model, h1]
      rw [hstep]
      rcases ih st with ⟨ha, hb, hc⟩
      refine ⟨?_, hb, hc⟩
      rw [ha]
      have hsc : cvSmallScores o st.X st.lengths (n :: rest)
          = cvSmallScores o st.X st.lengths rest := by
        rw [cvSmallScores, cvSmallScores, List.filterMap_cons]
        simp [h1]
      rw [hsc]
    | some m =>
      cases h2 : o.score m st.X st.lengths with
      | none =>
        have hstep : cvStep o seqs n st = st := by
          simp [cvStep, hle, base_model, h1, h2]
        rw [hstep]
        rcases ih st with ⟨ha, hb, hc⟩
        refine ⟨?_, hb, hc⟩
        rw [ha]
        have hsc : cvSmallScores o st.X st.lengths (n :: rest)
            = cvSmallScores o st.X st.lengths rest := by
          rw [cvSmallScores, cvSmallScores, List.filterMap_cons]
          simp [h1, h2]
        rw [hsc]
      | some ll =>
        have hstep : cvStep o seqs n st
            = { st with likelihoods := NpVal.scl ll,
                        scores := st.scores ++ [(ll, m)] } := by
          simp [cvStep, hle, base_model, h1, h2, npValMean]
        rw [hstep]
        rcases ih { st with likelihoods := NpVal.scl ll, scores := st.scores ++ [(ll, m)] } with ⟨ha, hb, hc⟩
        refine ⟨?_, hb, hc⟩
        rw [ha]
        have hsc : cvSmallScores o st.X st.lengths (n :: rest)
            = (ll, m) :: cvSmallScores o st.X st.lengths rest := by
          rw [cvSmallScores, cvSmallScores, List.filterMap_cons]
          simp [h1, h2]
        simp only []
        rw [hsc]
        simp

lemma recItem_char {Word Model Item : Type} (o : RecOracle Model Item)
    (models : List (Word × Model)) (item : Item) :
    (recItem o models item).likelihoods = models.map (recEntry o item)
    ∧ (recItem o models item).bestGuess = firstArgmax (models.map (recEntry o item))
    ∧ (recItem o models item).bestScore = llMaxVal ((models.map (recEntry o item)).map Prod.snd) := by
  refine ⟨?_, ?_, ?_⟩
  · rw [recItem, recStep_likelihoods]
    rfl
  · have h := recStep_best o item models
      { bestScore := LL.ninf, bestGuess := none, likelihoods := [] }
    rw [updBest_scan] at h
    exact congrArg Prod.snd (by exact h)
  · have h := recStep_best o item models
      { bestScore := LL.ninf, bestGuess := none, likelihoods := [] }
    rw [updBest_scan] at h
    exact congrArg Prod.fst (by exact h)

lemma llMaxVal_all_ninf : ∀ (vs : List LL), (∀ v ∈ vs, v = LL.ninf) →
    llMaxVal vs = LL.ninf := by
  intro vs hall
  by_cases h : llMaxVal vs = LL.ninf
  · exact h
  · exact hall _ (llMaxVal_mem h)

lemma map_congr_fun {α β : Type} (f g : α → β) (h : ∀ a, f a = g a) :
    ∀ l : List α, l.map f = l.map g := by
  intro l
  induction l with
  | nil => rfl
  | cons x xs ih => rw [List.map_cons, List.map_cons, h x, ih]

/-! Claim theorems. -/

/-- C1: the claim says every selector's `select()` always returns a non-null
fitted model, falling back to a model fitted at the constant state count.  The
code instead returns the bare integer `self.n_constant` from BIC, DIC and CV
when every candidate fails (`return self.n_constant`, modelled as `Sum.inr`),
and `SelectorConstant.select` returns `None` when its single fit fails.  This
theorem evaluates the embedded code at an input where every fit raises. -/
theorem c1_fallback_evaluation :
    (SelectorBIC.select oFail sA).1 = Sum.inr 3
    ∧ (SelectorDIC.select oFail sA).1 = Sum.inr 3
    ∧ (SelectorCV.select oFail sA).1 = Sum.inr 3
    ∧ (SelectorConstant.select oFail sA).1 = none := by
  refine ⟨rfl, rfl, rfl, rfl⟩

/-- C3 (amended): Constant, BIC and DIC leave the whole selector state
unchanged, and CV leaves the shared `words`/`hwords` mappings, the sequence
collection and every other field unchanged — but CV's `self.X`, `self.lengths`
are excluded because the fold loop assigns them (see the counterexample). -/
theorem c3_selector_state_frame {Word Obs Model : Type} [DecidableEq Word]
    (o : Oracles Obs Model) (s : SelState Word Obs) :
    (SelectorConstant.select o s).2 = s
    ∧ (SelectorBIC.select o s).2 = s
    ∧ (SelectorDIC.select o s).2 = s
    ∧ (SelectorCV.select o s).2.words = s.words
    ∧ (SelectorCV.select o s).2.hwords = s.hwords
    ∧ (SelectorCV.select o s).2.sequences = s.sequences
    ∧ (SelectorCV.select o s).2.this_word = s.this_word
    ∧ (SelectorCV.select o s).2.n_constant = s.n_constant
    ∧ (SelectorCV.select o s).2.min_n_components = s.min_n_components
    ∧ (SelectorCV.select o s).2.max_n_components = s.max_n_components :=
  ⟨rfl, rfl, rfl, rfl, rfl, rfl, rfl, rfl, rfl, rfl⟩

/-- C3 counterexample: on a five-sequence word with all trials succeeding,
`SelectorCV.select` leaves `self.X` holding the last fold's flattened training
buffer `[0, 1, 2, 3]` instead of the whole-word `[0, 1, 2, 3, 4]`, so the
per-word inputs are not left unchanged. -/
theorem c3_counterexample_cv_mutates_X :
    (SelectorCV.select oCv sCv).2.X = [0, 1, 2, 3]
    ∧ sCv.X = [0, 1, 2, 3, 4]
    ∧ (SelectorCV.select oCv sCv).2.X ≠ sCv.X := by
  refine ⟨rfl, rfl, by decide⟩

/-- C5: SelectorBIC records, for each candidate that fits and scores, the
criterion `-2·logL + (n² + 2·d·n − 1)·log N` — `logL` the score on the word's
own whole-word data, `d = n_features`, `N = len(self.X)` (frames) — keeping
only successful trials, and returns a model whose recorded criterion is
minimal over all recorded candidates. -/
theorem c5_bic_criterion {Word Obs Model : Type} (o : Oracles Obs Model)
    (s : SelState Word Obs) :
    bicScores o s = (candRange s).filterMap (bicTrial o s)
    ∧ (∀ (n : ℕ) (m : Model) (logL : ℚ),
        o.fit n s.X s.lengths = some m → o.score m s.X s.lengths = some logL →
        bicTrial o s n = some
          (-2 * logL + ((n : ℚ) ^ 2 + 2 * (o.nfeat m : ℚ) * (n : ℚ) - 1)
              * o.rlog s.X.length,
           m))
    ∧ (∀ m', (SelectorBIC.select o s).1 = Sum.inl m' →
        ∃ v, (v, m') ∈ bicScores o s ∧ ∀ p ∈ bicScores o s, v ≤ p.1) := by
  refine ⟨?_, ?_, ?_⟩
  · rw [bicScores, foldl_collect (bicTrial o s) (candRange s) []]
    simp
  · intro n m logL hfit hscore
    simp [bicTrial, base_model, hfit, hscore]
  · intro m' hm'
    simp only [SelectorBIC.select] at hm'
    cases hsc : bicScores o s with
    | nil => simp [hsc] at hm'
    | cons x xs =>
      rw [hsc] at hm'
      have hm2 : (pyMinBy xs x).2 = m' := Sum.inl.inj hm'
      refine ⟨(pyMinBy xs x).1, ?_, ?_⟩
      · rw [← hm2, Prod.mk.eta]
        rcases pyMinBy_mem xs x with h | h
        · rw [h]; exact List.mem_cons_self x xs
        · exact List.mem_cons_of_mem x h
      · intro p hp
        rcases pyMinBy_le xs x with ⟨h1, h2⟩
        rcases List.mem_cons.mp hp with rfl | hp2
        · exact h1
        · exact h2 p hp2

/-- C5 witness: with oracles where only the 2-state fit succeeds (score 6,
`d = 1`, `log = 1`), the theorem applied at that input. -/
theorem c5_bic_criterion_witness :
    (oB.fit 2 sA.X sA.lengths = some 2 ∧ oB.score 2 sA.X sA.lengths = some 6
      ∧ (SelectorBIC.select oB sA).1 = Sum.inl 2)
    ∧ bicTrial oB sA 2 = some
        (-2 * 6 + (((2 : ℕ) : ℚ) ^ 2 + 2 * (oB.nfeat 2 : ℚ) * ((2 : ℕ) : ℚ) - 1)
            * oB.rlog sA.X.length,
         2)
    ∧ (∃ v, (v, 2) ∈ bicScores oB sA ∧ ∀ p ∈ bicScores oB sA, v ≤ p.1) :=
  ⟨⟨rfl, rfl, rfl⟩,
   (c5_bic_criterion oB sA).2.1 2 2 6 rfl rfl,
   (c5_bic_criterion oB sA).2.2 2 rfl⟩

/-- C6: SelectorDIC records, for each candidate whose fit and every score
succeed, `own logL − mean(logL on every other word's whole-word data)`; a
failure scoring any single other word drops the whole trial; and the returned
model has the maximal recorded criterion. -/
theorem c6_dic_criterion {Word Obs Model : Type} [DecidableEq Word]
    (o : Oracles Obs Model) (s : SelState Word Obs) :
    dicScores o s = (candRange s).filterMap (dicTrial o s)
    ∧ (∀ (n : ℕ) (m : Model) (own : ℚ) (f : Word × (List Obs × List ℕ) → ℚ),
        o.fit n s.X s.lengths = some m →
        (∀ p ∈ otherWords s, o.score m p.2.1 p.2.2 = some (f p)) →
        o.score m s.X s.lengths = some own →
        dicTrial o s n = some (own - npMean ((otherWords s).map f), m))
    ∧ (∀ (n : ℕ) (m : Model) (p : Word × (List Obs × List ℕ)),
        o.fit n s.X s.lengths = some m → p ∈ otherWords s →
        o.score m p.2.1 p.2.2 = none →
        dicTrial o s n = none)
    ∧ (∀ m', (SelectorDIC.select o s).1 = Sum.inl m' →
        ∃ v, (v, m') ∈ dicScores o s ∧ ∀ q ∈ dicScores o s, q.1 ≤ v) := by
  refine ⟨?_, ?_, ?_, ?_⟩
  · rw [dicScores, foldl_collect (dicTrial o s) (candRange s) []]
    simp
  · intro n m own f hfit hothers hown
    have hmap := mapM_some_of (fun p => o.score m p.2.1 p.2.2) f (otherWords s) hothers
    rw [dicTrial, base_model, hfit]
    simp only [hmap, hown]
  · intro n m p hfit hmem hnone
    have hmap := mapM_none_of (fun p1 => o.score m p1.2.1 p1.2.2) (otherWords s) p hmem hnone
    rw [dicTrial, base_model, hfit]
    simp only [hmap]
  · intro m' hm'
    simp only [SelectorDIC.select] at hm'
    cases hsc : dicScores o s with
    | nil => simp [hsc] at hm'
    | cons x xs =>
      rw [hsc] at hm'
      have hm2 : (pyMaxBy xs x).2 = m' := Sum.inl.inj hm'
      refine ⟨(pyMaxBy xs x).1, ?_, ?_⟩
      · rw [← hm2, Prod.mk.eta]
        rcases pyMaxBy_mem xs x with h | h
        · rw [h]; exact List.mem_cons_self x xs
        · exact List.mem_cons_of_mem x h
      · intro q hq
        rcases pyMaxBy_ge xs x with ⟨h1, h2⟩
        rcases List.mem_cons.mp hq with rfl | hq2
        · exact h1
        · exact h2 q hq2

/-- C6 witness: a two-word state where only the 2-state fit succeeds; the
formula conjunct is applied with every other-word score succeeding (value 4,
own score 6), the exclusion conjunct with an oracle whose other-word score
raises, and the arg-max conjunct at the resulting singleton score list. -/
theorem c6_dic_criterion_witness :
    (oD.fit 2 sD.X sD.lengths = some 2
      ∧ (∀ p ∈ otherWords sD, oD.score 2 p.2.1 p.2.2 = some 4)
      ∧ oD.score 2 sD.X sD.lengths = some 6
      ∧ (SelectorDIC.select oD sD).1 = Sum.inl 2)
    ∧ dicTrial oD sD 2 = some (6 - npMean ((otherWords sD).map (fun _ => (4 : ℚ))), 2)
    ∧ (oD2.fit 2 sD.X sD.lengths = some 2 ∧ (1, ([5], [1])) ∈ otherWords sD
        ∧ oD2.score 2 [5] [1] = none ∧ dicTrial oD2 sD 2 = none)
    ∧ (∃ v, (v, 2) ∈ dicScores oD sD ∧ ∀ q ∈ dicScores oD sD, q.1 ≤ v) :=
  ⟨⟨rfl, by decide, rfl, rfl⟩,
   (c6_dic_criterion oD sD).2.1 2 2 6 (fun _ => (4 : ℚ)) rfl (by decide) rfl,
   ⟨rfl, by decide, rfl,
    (c6_dic_criterion oD2 sD).2.2.1 2 2 (1, ([5], [1])) rfl (by decide) rfl⟩,
   (c6_dic_criterion oD sD).2.2.2 2 rfl⟩

/-- C7: with 2 or fewer sequences, SelectorCV performs no folding: every
candidate is fitted once on the whole-word `self.X` and scored against that
same `self.X`, that single log-likelihood (not a mean of folds) is the
recorded criterion entry, the selector state — in particular `self.X` — is
left unchanged, and the model with maximal recorded criterion is selected. -/
theorem c7_cv_degenerate {Word Obs Model : Type} (o : Oracles Obs Model)
    (s : SelState Word Obs) (hle : s.sequences.length ≤ 2) :
    (cvRun o s).scores = cvSmallScores o s.X s.lengths (candRange s)
    ∧ (cvRun o s).X = s.X
    ∧ (cvRun o s).lengths = s.lengths
    ∧ (SelectorCV.select o s).2 = s
    ∧ (∀ m', (SelectorCV.select o s).1 = Sum.inl m' →
        ∃ v, (v, m') ∈ (cvRun o s).scores
          ∧ ∀ p ∈ (cvRun o s).scores, p.1 ≤ v) := by
  have hnot : ¬ 2 < s.sequences.length := by omega
  obtain ⟨ha, hb, hc⟩ := cvLoop_small o s.sequences hnot (candRange s)
    ⟨NpVal.lst [], [], s.X, s.lengths⟩
  have ha' : (cvRun o s).scores
      = cvSmallScores o s.X s.lengths (candRange s) := by
    rw [cvRun, ha]
    simp
  have hb' : (cvRun o s).X = s.X := by
    rw [cvRun, hb]
  have hc' : (cvRun o s).lengths = s.lengths := by
    rw [cvRun, hc]
  refine ⟨ha', hb', hc', ?_, ?_⟩
  · simp only [SelectorCV.select]
    rw [hb', hc']
  · intro m' hm'
    simp only [SelectorCV.select] at hm'
    cases hsc : (cvRun o s).scores with
    | nil => rw [hsc] at hm'; simp at hm'
    | cons x xs =>
      rw [hsc] at hm'
      have hm2 : (pyMaxBy xs x).2 = m' := Sum.inl.inj hm'
      refine ⟨(pyMaxBy xs x).1, ?_, ?_⟩
      · rw [← hm2, Prod.mk.eta]
        rcases pyMaxBy_mem xs x with h | h
        · rw [h]; exact List.mem_cons_self x xs
        · exact List.mem_cons_of_mem x h
      · intro p hp
        rcases pyMaxBy_ge xs x with ⟨h1, h2⟩
        rcases List.mem_cons.mp hp with rfl | hp2
        · exact h1
        · exact h2 p hp2

/-- C7 witness: a one-sequence word where only the 2-state fit succeeds
(self-score 6), the theorem applied at that input. -/
theorem c7_cv_degenerate_witness :
    sA.sequences.length ≤ 2
    ∧ (cvRun oB sA).scores = cvSmallScores oB sA.X sA.lengths (candRange sA)
    ∧ (cvRun oB sA).X = sA.X
    ∧ (SelectorCV.select oB sA).2 = sA
    ∧ (∃ v, (v, 2) ∈ (cvRun oB sA).scores
        ∧ ∀ p ∈ (cvRun oB sA).scores, p.1 ≤ v) := by
  have h := c7_cv_degenerate oB sA (by decide)
  exact ⟨by decide, h.1, h.2.1, h.2.2.2.1, h.2.2.2.2 2 rfl⟩

/-- C4: for every oracle assignment — that is, under any combination of
per-candidate or per-fold fit/score failures, each failure being modelled by
the oracle returning `none` and caught where the source's `try/except` sits —
every selector's `select()` returns normally with either a surviving model or
the constant fallback value, and `recognize` returns normally with two lists
of the test set's length.  No exception value escapes to the caller. -/
theorem c4_no_raise {Word Obs Model RModel Item : Type} [DecidableEq Word]
    (o : Oracles Obs Model) (s : SelState Word Obs)
    (ro : RecOracle RModel Item) (models : List (Word × RModel)) (test : List Item) :
    ((∃ m, (SelectorBIC.select o s).1 = Sum.inl m)
        ∨ (SelectorBIC.select o s).1 = Sum.inr s.n_constant)
    ∧ ((∃ m, (SelectorDIC.select o s).1 = Sum.inl m)
        ∨ (SelectorDIC.select o s).1 = Sum.inr s.n_constant)
    ∧ ((∃ m, (SelectorCV.select o s).1 = Sum.inl m)
        ∨ (SelectorCV.select o s).1 = Sum.inr s.n_constant)
    ∧ ((∃ m, (SelectorConstant.select o s).1 = some m)
        ∨ (SelectorConstant.select o s).1 = none)
    ∧ (recognize ro models test).1.length = test.length
    ∧ (recognize ro models test).2.length = test.length := by
  refine ⟨?_, ?_, ?_, ?_, ?_, ?_⟩
  · simp only [SelectorBIC.select]
    cases bicScores o s with
    | nil => exact Or.inr rfl
    | cons x xs => exact Or.inl ⟨(pyMinBy xs x).2, rfl⟩
  · simp only [SelectorDIC.select]
    cases dicScores o s with
    | nil => exact Or.inr rfl
    | cons x xs => exact Or.inl ⟨(pyMaxBy xs x).2, rfl⟩
  · simp only [SelectorCV.select]
    cases (cvRun o s).scores with
    | nil => exact Or.inr rfl
    | cons x xs => exact Or.inl ⟨(pyMaxBy xs x).2, rfl⟩
  · simp only [SelectorConstant.select]
    cases base_model o s.X s.lengths s.n_constant with
    | none => exact Or.inr rfl
    | some m => exact Or.inl ⟨m, rfl⟩
  · simp [recognize]
  · simp [recognize]

/-- C2 (amended): in SelectorCV with more than 2 sequences, the `likelihoods`
list is created once outside the candidate loop, so when every trial succeeds
the criterion recorded for the `i`-th candidate is the mean of the per-fold
validation log-likelihoods accumulated over **all candidates up to and
including it** (folds of earlier candidates included), not of that candidate's
folds alone; the candidate with the maximum such recorded mean is selected. -/
theorem c2_cv_accumulated_mean {Word Obs Model : Type}
    (fitF : ℕ → List Obs → List ℕ → Model) (scoreF : Model → List Obs → List ℕ → ℚ)
    (nf : Model → ℕ) (lg : ℕ → ℚ) (s : SelState Word Obs)
    (folds : List (List ℕ × List ℕ)) (h2 : 2 < s.sequences.length)
    (hk : kfoldSplits s.sequences.length 5 = some folds) :
    (cvRun (totalOracles fitF scoreF nf lg) s).scores
        = cvAccScores fitF scoreF s.sequences folds [] (candRange s)
    ∧ (∀ (i : ℕ) (hi : i < (candRange s).length),
        (cvAccScores fitF scoreF s.sequences folds [] (candRange s)
            : List (ℚ × Model)).get ⟨i, by rw [cvAccScores_length]; exact hi⟩
          = (npMean ((((candRange s).take (i + 1)).map
                (cvFoldValList fitF scoreF s.sequences folds)).flatten),
             cvLastModel fitF s.sequences folds ((candRange s).get ⟨i, hi⟩)))
    ∧ (∀ m', (SelectorCV.select (totalOracles fitF scoreF nf lg) s).1 = Sum.inl m' →
        ∃ v, (v, m') ∈ (cvRun (totalOracles fitF scoreF nf lg) s).scores
          ∧ ∀ p ∈ (cvRun (totalOracles fitF scoreF nf lg) s).scores, p.1 ≤ v) := by
  obtain ⟨hs, hl⟩ := cvLoop_total fitF scoreF nf lg s.sequences folds h2 hk (candRange s)
    ⟨NpVal.lst [], [], s.X, s.lengths⟩ [] rfl
  have hs' : (cvRun (totalOracles fitF scoreF nf lg) s).scores
      = cvAccScores fitF scoreF s.sequences folds [] (candRange s) := by
    rw [cvRun, hs]
    simp
  refine ⟨hs', ?_, ?_⟩
  · intro i hi
    have hget := cvAccScores_get fitF scoreF s.sequences folds (candRange s) [] i hi
    rw [hget]
    simp only [List.nil_append]
  · intro m' hm'
    simp only [SelectorCV.select] at hm'
    cases hsc : (cvRun (totalOracles fitF scoreF nf lg) s).scores with
    | nil => rw [hsc] at hm'; simp at hm'
    | cons x xs =>
      rw [hsc] at hm'
      have hm2 : (pyMaxBy xs x).2 = m' := Sum.inl.inj hm'
      refine ⟨(pyMaxBy xs x).1, ?_, ?_⟩
      · rw [← hm2, Prod.mk.eta]
        rcases pyMaxBy_mem xs x with h | h
        · rw [h]; exact List.mem_cons_self x xs
        · exact List.mem_cons_of_mem x h
      · intro p hp
        rcases pyMaxBy_ge xs x with ⟨h1, h2a⟩
        rcases List.mem_cons.mp hp with rfl | hp2
        · exact h1
        · exact h2a p hp2

/-- C2 counterexample: five singleton sequences, candidates `[2, 3]`, every
fold of candidate 2 scoring 0 and every fold of candidate 3 scoring 10.  The
code records criterion 5 for candidate 3 — the mean over the ten accumulated
fold likelihoods of both candidates — whereas the mean of exactly candidate
3's five per-fold likelihoods is 10, so the claim's per-candidate mean is
false on the code. -/
theorem c2_counterexample_accumulated_mean :
    kfoldSplits sCv.sequences.length 5 = some folds5
    ∧ (cvRun oCv sCv).scores.map Prod.fst
        = [npMean (cvFoldValList fitF0 scoreF0 sCv.sequences folds5 2),
           npMean (cvFoldValList fitF0 scoreF0 sCv.sequences folds5 2
             ++ cvFoldValList fitF0 scoreF0 sCv.sequences folds5 3)]
    ∧ cvFoldValList fitF0 scoreF0 sCv.sequences folds5 3 = [10, 10, 10, 10, 10]
    ∧ npMean (cvFoldValList fitF0 scoreF0 sCv.sequences folds5 2
          ++ cvFoldValList fitF0 scoreF0 sCv.sequences folds5 3)
        ≠ npMean (cvFoldValList fitF0 scoreF0 sCv.sequences folds5 3) := by
  refine ⟨by decide, rfl, rfl, ?_⟩
  show npMean [0, 0, 0, 0, 0, 10, 10, 10, 10, 10] ≠ npMean [10, 10, 10, 10, 10]
  rw [npMean, npMean]
  norm_num [List.sum_cons, List.sum_nil]

/-- C2 witness: the amended theorem applied to the counterexample scenario;
the arg-max conjunct is instantiated at the winning candidate 3. -/
theorem c2_cv_accumulated_mean_witness :
    (2 < sCv.sequences.length ∧ kfoldSplits sCv.sequences.length 5 = some folds5)
    ∧ (cvRun (totalOracles fitF0 scoreF0 (fun _ => 1) (fun _ => 0)) sCv).scores
        = cvAccScores fitF0 scoreF0 sCv.sequences folds5 [] (candRange sCv)
    ∧ ((cvAccScores fitF0 scoreF0 sCv.sequences folds5 [] (candRange sCv)
          : List (ℚ × ℕ)).get
            ⟨1, by rw [cvAccScores_length]; decide⟩
        = (npMean ((((candRange sCv).take 2).map
              (cvFoldValList fitF0 scoreF0 sCv.sequences folds5)).flatten),
           cvLastModel fitF0 sCv.sequences folds5 ((candRange sCv).get ⟨1, by decide⟩)))
    ∧ (∃ v, (v, 3) ∈ (cvRun (totalOracles fitF0 scoreF0 (fun _ => 1) (fun _ => 0)) sCv).scores
        ∧ ∀ p ∈ (cvRun (totalOracles fitF0 scoreF0 (fun _ => 1) (fun _ => 0)) sCv).scores,
            p.1 ≤ v) := by
  have h := c2_cv_accumulated_mean fitF0 scoreF0 (fun _ => 1) (fun _ => 0) sCv folds5
    (by decide) (by decide)
  refine ⟨⟨by decide, by decide⟩, h.1, h.2.1 1 (by decide), ?_⟩
  apply h.2.2 3
  have hscores : (cvRun (totalOracles fitF0 scoreF0 (fun _ => 1) (fun _ => 0)) sCv).scores
      = [(npMean [0, 0, 0, 0, 0], 2), (npMean [0, 0, 0, 0, 0, 10, 10, 10, 10, 10], 3)] := rfl
  have hlt : npMean [(0 : ℚ), 0, 0, 0, 0] < npMean [0, 0, 0, 0, 0, 10, 10, 10, 10, 10] := by
    rw [npMean, npMean]
    norm_num [List.sum_cons, List.sum_nil]
  simp only [SelectorCV.select]
  rw [hscores]
  show Sum.inl (pyMaxBy [((npMean [0, 0, 0, 0, 0, 10, 10, 10, 10, 10] : ℚ), 3)]
      ((npMean [(0 : ℚ), 0, 0, 0, 0]), 2)).2 = Sum.inl 3
  rw [pyMaxBy, if_pos hlt]
  rfl

/-- C8 (amended): `recognize` returns two lists index-aligned with the test
set's iteration order; each item's likelihood mapping has exactly one entry
per model, in model order; a failed scoring records `-inf`; and an entry is
`-inf` iff scoring failed **or the scoring succeeded returning `-inf`
itself** — the original claim's "iff scoring failed" is refuted by the
counterexample where a successful score is exactly `-inf`. -/
theorem c8_recognize_shape {Word Model Item : Type} (o : RecOracle Model Item)
    (models : List (Word × Model)) (test : List Item) :
    (recognize o models test).1.length = test.length
    ∧ (recognize o models test).2.length = test.length
    ∧ (recognize o models test).1 = test.map (fun item => models.map (recEntry o item))
    ∧ (∀ item : Item, (models.map (recEntry o item)).map Prod.fst = models.map Prod.fst)
    ∧ (∀ (item : Item) (wm : Word × Model), o.rscore wm.2 item = none →
        (recEntry o item wm).2 = LL.ninf)
    ∧ (∀ (item : Item) (wm : Word × Model),
        ((recEntry o item wm).2 = LL.ninf
          ↔ o.rscore wm.2 item = none ∨ o.rscore wm.2 item = some LL.ninf)) := by
  refine ⟨by simp [recognize], by simp [recognize], ?_, ?_, ?_, ?_⟩
  · simp only [recognize]
    apply map_congr_fun
    intro it
    exact (recItem_char o models it).1
  · intro item
    simp [recEntry, List.map_map, Function.comp]
  · intro item wm h
    simp [recEntry, h]
  · intro item wm
    cases hr : o.rscore wm.2 item with
    | none => simp [recEntry, hr]
    | some v => simp [recEntry, hr]

/-- C8 counterexample: a single model whose scoring **succeeds** returning
`-inf`: the recorded entry is `-inf` although scoring did not fail, so "entry
equals negative infinity iff scoring failed" is false as stated. -/
theorem c8_counterexample_ninf_success :
    recognize oRecNinf [((0 : ℕ), (0 : ℕ))] [(0 : ℕ)] = ([[(0, LL.ninf)]], [none])
    ∧ oRecNinf.rscore 0 0 = some LL.ninf
    ∧ ¬ oRecNinf.rscore 0 0 = none := by
  exact ⟨rfl, rfl, by decide⟩

/-- C8 witness: the amended theorem applied to one model and one item whose
scoring raises. -/
theorem c8_recognize_shape_witness :
    oRecFail.rscore (0 : ℕ) (0 : ℕ) = none
    ∧ (recEntry oRecFail (0 : ℕ) ((7 : ℕ), (0 : ℕ))).2 = LL.ninf
    ∧ (recognize oRecFail [((7 : ℕ), (0 : ℕ))] [(0 : ℕ)]).1.length = 1 :=
  ⟨rfl,
   (c8_recognize_shape oRecFail [((7 : ℕ), (0 : ℕ))] [(0 : ℕ)]).2.2.2.2.1 0 (7, 0) rfl,
   (c8_recognize_shape oRecFail [((7 : ℕ), (0 : ℕ))] [(0 : ℕ)]).1⟩

/-- C9: the per-item best guess equals the result of a single left-to-right
strict-`>` scan — `none` when no recorded likelihood exceeds `-inf`, else the
first word attaining the greatest recorded likelihood (first-seen wins exact
ties, `firstArgmax`); and when every model fails for an item the guess is the
`None` sentinel with every recorded likelihood `-inf`. -/
theorem c9_scan_argmax {Word Model Item : Type} (o : RecOracle Model Item)
    (models : List (Word × Model)) (test : List Item) :
    (recognize o models test).2 = ((recognize o models test).1).map firstArgmax
    ∧ (∀ item : Item, (∀ wm ∈ models, o.rscore wm.2 item = none) →
        (recItem o models item).bestGuess = none
        ∧ ∀ p ∈ (recItem o models item).likelihoods, p.2 = LL.ninf) := by
  constructor
  · simp only [recognize, List.map_map]
    apply map_congr_fun
    intro it
    simp only [Function.comp_apply]
    rw [(recItem_char o models it).2.1, (recItem_char o models it).1]
  · intro item hall
    have hl := (recItem_char o models item).1
    have hvals : ∀ p ∈ models.map (recEntry o item), p.2 = LL.ninf := by
      intro p hp
      rcases List.mem_map.mp hp with ⟨wm, hwm, rfl⟩
      simp [recEntry, hall wm hwm]
    have hmaxn : llMaxVal ((models.map (recEntry o item)).map Prod.snd) = LL.ninf := by
      apply llMaxVal_all_ninf
      intro v hv
      rcases List.mem_map.mp hv with ⟨p, hp, rfl⟩
      exact hvals p hp
    constructor
    · rw [(recItem_char o models item).2.1, firstArgmax, if_pos hmaxn]
    · rw [hl]
      exact hvals

/-- C9 witness: the theorem applied to a single model whose scoring always
raises. -/
theorem c9_scan_argmax_witness :
    (∀ wm ∈ [((0 : ℕ), (0 : ℕ))], oRecFail.rscore wm.2 (0 : ℕ) = none)
    ∧ (recognize oRecFail [((0 : ℕ), (0 : ℕ))] [(0 : ℕ)]).2
        = ((recognize oRecFail [((0 : ℕ), (0 : ℕ))] [(0 : ℕ)]).1).map firstArgmax
    ∧ (recItem oRecFail [((0 : ℕ), (0 : ℕ))] (0 : ℕ)).bestGuess = none
    ∧ (∀ p ∈ (recItem oRecFail [((0 : ℕ), (0 : ℕ))] (0 : ℕ)).likelihoods, p.2 = LL.ninf) := by
  have h := c9_scan_argmax oRecFail [((0 : ℕ), (0 : ℕ))] [(0 : ℕ)]
  have h2 := h.2 0 (by decide)
  exact ⟨by decide, h.1, h2.1, h2.2⟩

/-- C10: a non-sentinel guess always has recorded likelihood strictly above
`-inf` — in particular a model whose scoring succeeds but returns exactly
`-inf` can never be the guess — and the guess is the sentinel whenever no
recorded likelihood is strictly above `-inf`, even if some scorings
succeeded. -/
theorem c10_guess_strictly_above_ninf {Word Model Item : Type} (o : RecOracle Model Item)
    (models : List (Word × Model)) (item : Item) :
    (∀ w, (recItem o models item).bestGuess = some w →
      ∃ v, (w, v) ∈ (recItem o models item).likelihoods ∧ LL.lt LL.ninf v = true)
    ∧ ((∀ p ∈ (recItem o models item).likelihoods, LL.lt LL.ninf p.2 = false) →
        (recItem o models item).bestGuess = none) := by
  obtain ⟨hl, hg, hs⟩ := recItem_char o models item
  constructor
  · intro w hw
    rw [hg, firstArgmax] at hw
    by_cases hm : llMaxVal ((models.map (recEntry o item)).map Prod.snd) = LL.ninf
    · rw [if_pos hm] at hw
      exact absurd hw (by simp)
    · rw [if_neg hm] at hw
      cases hf : (models.map (recEntry o item)).find?
          (fun p => decide (p.2 = llMaxVal ((models.map (recEntry o item)).map Prod.snd))) with
      | none => rw [hf] at hw; exact absurd hw (by simp)
      | some a =>
        rw [hf] at hw
        have hwa : a.1 = w := by simpa using hw
        have hmem := List.mem_of_find?_eq_some hf
        have hpa := List.find?_some hf
        simp only [decide_eq_true_eq] at hpa
        refine ⟨a.2, ?_, ?_⟩
        · rw [hl, ← hwa, Prod.mk.eta]
          exact hmem
        · rw [hpa]
          cases hmv : llMaxVal ((models.map (recEntry o item)).map Prod.snd) with
          | ninf => exact absurd hmv hm
          | fin q => rfl
  · intro hall
    rw [hl] at hall
    have hmaxn : llMaxVal ((models.map (recEntry o item)).map Prod.snd) = LL.ninf := by
      apply llMaxVal_all_ninf
      intro v hv
      rcases List.mem_map.mp hv with ⟨p, hp, rfl⟩
      exact LL.eq_ninf_of_not_ninf_lt (hall p hp)
    rw [hg, firstArgmax, if_pos hmaxn]

/-- C10 witness: a mixed scenario (one model scoring 5, one succeeding with
`-inf`) where the guess's likelihood is strictly above `-inf`, and an
all-`-inf` scenario where the guess is the sentinel. -/
theorem c10_guess_strictly_above_ninf_witness :
    (recItem oRecMix [((10 : ℕ), (1 : ℕ)), (30, 3)] (0 : ℕ)).bestGuess = some 10
    ∧ (∃ v, ((10 : ℕ), v) ∈ (recItem oRecMix [((10 : ℕ), (1 : ℕ)), (30, 3)] (0 : ℕ)).likelihoods
        ∧ LL.lt LL.ninf v = true)
    ∧ (∀ p ∈ (recItem oRecNinf [((0 : ℕ), (0 : ℕ))] (0 : ℕ)).likelihoods,
        LL.lt LL.ninf p.2 = false)
    ∧ (recItem oRecNinf [((0 : ℕ), (0 : ℕ))] (0 : ℕ)).bestGuess = none :=
  ⟨rfl,
   (c10_guess_strictly_above_ninf oRecMix [((10 : ℕ), (1 : ℕ)), (30, 3)] 0).1 10 rfl,
   by decide,
   (c10_guess_strictly_above_ninf oRecNinf [((0 : ℕ), (0 : ℕ))] 0).2 (by decide)⟩

end ASL
